import Mathlib

/-!
# Verification of VFB_connect against its specification

A shallow embedding of the data model and operations of the VFB_connect
library (a Python client for the Virtual Fly Brain API endpoints), with
proofs of the specification claims about it.

The repository snapshot contains the library's documentation (generated
API docs with docstrings), README, and CI workflow files, but not the
Python implementation modules themselves.  Definitions below are therefore
modelled from the specification and the docstrings, as noted in each doc
comment.
-/

namespace VFBConnect

/-! ## Statement chunking (`vfb_connect.neo.neo4j_tools.chunks`) -/

/-- Modelled from the spec: the implementation of `chunks(l, n)` in
`vfb_connect/neo/neo4j_tools.py` is missing from the snapshot; only its
docstring is present: "Yield successive n-sized chunks from l."  We model
it as the list of successive `n`-sized slices of `l` (the final slice may
be shorter).  For `n = 0` (where the Python generator raises on its first
step) we return `[]`. -/
def chunks (l : List α) (n : Nat) : List (List α) :=
  if l.isEmpty || n == 0 then [] else
    l.take n :: chunks (l.drop n) n
termination_by l.length
decreasing_by
  rename_i h
  simp only [Bool.or_eq_true, List.isEmpty_iff, beq_iff_eq, not_or] at h
  have hlen : 0 < l.length := List.length_pos.mpr h.1
  simp only [List.length_drop]
  omega

theorem chunks_nil (n : Nat) : chunks ([] : List α) n = [] := by
  rw [chunks]
  simp

theorem chunks_zero (l : List α) : chunks l 0 = [] := by
  rw [chunks]
  simp

theorem chunks_cons (l : List α) (n : Nat) (hl : l ≠ []) (hn : n ≠ 0) :
    chunks l n = l.take n :: chunks (l.drop n) n := by
  rw [chunks]
  simp [hl, hn]

/-- Concatenating the chunks of `l` in yield order gives back `l`. -/
theorem chunks_join (l : List α) (n : Nat) (hn : n ≠ 0) :
    (chunks l n).flatten = l := by
  induction l, n using chunks.induct with
  | case1 l n h =>
    simp only [Bool.or_eq_true, List.isEmpty_iff, beq_iff_eq] at h
    rcases h with h | h
    · subst h; rw [chunks_nil]; rfl
    · exact absurd h hn
  | case2 l n h ih =>
    simp only [Bool.or_eq_true, List.isEmpty_iff, beq_iff_eq, not_or] at h
    rw [chunks_cons l n h.1 h.2]
    simp [ih hn, List.take_append_drop]

/-- Every chunk of a non-empty list is non-empty and no longer than `n`. -/
theorem chunks_mem_length (l : List α) (n : Nat) (hn : n ≠ 0) :
    ∀ c ∈ chunks l n, 1 ≤ c.length ∧ c.length ≤ n := by
  induction l, n using chunks.induct with
  | case1 l n h =>
    simp only [Bool.or_eq_true, List.isEmpty_iff, beq_iff_eq] at h
    rcases h with h | h
    · subst h; rw [chunks_nil]; intro c hc; cases hc
    · exact absurd h hn
  | case2 l n h ih =>
    simp only [Bool.or_eq_true, List.isEmpty_iff, beq_iff_eq, not_or] at h
    rw [chunks_cons l n h.1 h.2]
    intro c hc
    rcases List.mem_cons.mp hc with hc | hc
    · subst hc
      constructor
      · have : 0 < l.length := List.length_pos.mpr h.1
        simp only [List.length_take]
        omega
      · simp only [List.length_take]
        omega
    · exact ih hn c hc

/-- Every chunk other than the last has length exactly `n`. -/
theorem chunks_dropLast_length (l : List α) (n : Nat) (hn : n ≠ 0) :
    ∀ c ∈ (chunks l n).dropLast, c.length = n := by
  induction l, n using chunks.induct with
  | case1 l n h =>
    simp only [Bool.or_eq_true, List.isEmpty_iff, beq_iff_eq] at h
    rcases h with h | h
    · subst h; rw [chunks_nil]; intro c hc; cases hc
    · exact absurd h hn
  | case2 l n h ih =>
    simp only [Bool.or_eq_true, List.isEmpty_iff, beq_iff_eq, not_or] at h
    rw [chunks_cons l n h.1 h.2]
    intro c hc
    by_cases hrest : chunks (l.drop n) n = []
    · rw [hrest] at hc
      cases hc
    · rw [List.dropLast_cons_of_ne_nil hrest] at hc
      rcases List.mem_cons.mp hc with hc | hc
      · subst hc
        have hlong : n ≤ l.length := by
          by_contra hshort
          push_neg at hshort
          have : l.drop n = [] := List.drop_eq_nil_of_le (le_of_lt hshort)
          rw [this, chunks_nil] at hrest
          exact hrest rfl
        simp [List.length_take, Nat.min_eq_left hlong]
      · exact ih hn c hc

example : chunks [1, 2, 3, 4, 5] 2 = [[1, 2], [3, 4], [5]] := by
  simp [chunks]

/-- Claim C8: for every list `l` and positive `n`, the chunks yielded by
`chunks l n`, concatenated in yield order, equal `l`; every yielded chunk
except possibly the last has length exactly `n`; every yielded chunk
(including the last) has length between 1 and `n`; and an empty `l` yields
no chunks. -/
theorem C8_chunks_spec (l : List α) (n : Nat) (hn : 0 < n) :
    (chunks l n).flatten = l
    ∧ (∀ c ∈ (chunks l n).dropLast, c.length = n)
    ∧ (∀ c ∈ chunks l n, 1 ≤ c.length ∧ c.length ≤ n)
    ∧ chunks ([] : List α) n = [] :=
  ⟨chunks_join l n (Nat.pos_iff_ne_zero.mp hn),
   chunks_dropLast_length l n (Nat.pos_iff_ne_zero.mp hn),
   chunks_mem_length l n (Nat.pos_iff_ne_zero.mp hn),
   chunks_nil n⟩

/-- Witness for C8 at the concrete input `l = [1,2,3,4,5]`, `n = 2`. -/
theorem C8_chunks_spec_witness :
    0 < 2
    ∧ ((chunks [1, 2, 3, 4, 5] 2).flatten = [1, 2, 3, 4, 5]
      ∧ (∀ c ∈ (chunks [1, 2, 3, 4, 5] 2).dropLast, c.length = 2)
      ∧ (∀ c ∈ chunks [1, 2, 3, 4, 5] 2, 1 ≤ c.length ∧ c.length ≤ 2)
      ∧ chunks ([] : List Nat) 2 = []) :=
  ⟨by decide, C8_chunks_spec [1, 2, 3, 4, 5] 2 (by decide)⟩

/-! ## `Neo4jConnect` commit machinery (`vfb_connect.neo.neo4j_tools`) -/

/-- Modelled from the spec: the per-statement result object of the Neo4j
transactional REST endpoint (an entry of the "results" array of the JSON
response body), treated as opaque data. -/
structure NeoResult where
  data : String
deriving DecidableEq, Repr

/-- Modelled from the spec: the response to a multi-statement POST to the
Neo4j transactional endpoint: the HTTP status (is it OK?), the "errors"
field of the JSON body, and the per-statement "results" list. -/
structure NeoResponse where
  statusOk : Bool
  errors : List String
  results : List NeoResult
deriving DecidableEq, Repr

/-- Modelled from the spec: a Neo4j server, as seen through the REST
wrapper, maps a posted list of Cypher statement strings to a response. -/
def NeoServer : Type := List String → NeoResponse

/-- Modelled from the spec: `Neo4jConnect.rest_return_check` — "Checks
status response to post. ... Returns True STATUS OK and no errors,
otherwise returns False."  (The printing of warnings to STDERR is side
effect only and is not modelled.) -/
def rest_return_check (response : NeoResponse) : Bool :=
  response.statusOk && response.errors.isEmpty

/-- Modelled from the spec: `Neo4jConnect.commit_list` — "Commit a list of
statements to neo4J DB via REST API. ... Errors prompt warnings, not
exceptions, and cause return = FALSE.  Returns results list of results or
False if any errors are encountered."  `none` models the Python return
value `False`; totality of this function models freedom from exceptions. -/
def commit_list (server : NeoServer) (statements : List String) :
    Option (List NeoResult) :=
  let response := server statements
  if rest_return_check response then some response.results else none

/-- Modelled from the spec: `Neo4jConnect.commit_list_in_chunks` — "Commit
a list of statements to neo4J DB via REST API, split into chunks. ...
Returns a list of results.  Output is indistinguishable from output of
commit_list (i.e. chunking is not reflected in results list)."  Each chunk
is committed with `commit_list` and the per-chunk results lists are
concatenated; a failed chunk commit makes the whole call fail. -/
def commit_list_in_chunks (server : NeoServer) (statements : List String)
    (chunk_length : Nat) : Option (List NeoResult) :=
  (chunks statements chunk_length).foldr
    (fun c acc =>
      match commit_list server c, acc with
      | some r, some rs => some (r ++ rs)
      | _, _ => none)
    (some [])

/-- Modelled from the spec: the Neo4j transactional endpoint executes each
Cypher statement of a batch independently, producing one result per
statement, an OK status and no errors.  This captures a healthy server, on
which the docstring's claim of indistinguishability is made. -/
def pointwiseServer (evalStmt : String → NeoResult) : NeoServer :=
  fun statements => ⟨true, [], statements.map evalStmt⟩

/-- Claim C3: `commit_list` either returns the per-statement results list
(exactly when the HTTP status is OK and the JSON body has no errors, as
checked by `rest_return_check`) or returns `False` (modelled `none`); it is
a total function, so the caller always receives one of the two. -/
theorem C3_commit_list_total (server : NeoServer) (statements : List String) :
    (rest_return_check (server statements) = true
      ∧ commit_list server statements = some (server statements).results)
    ∨ (rest_return_check (server statements) = false
      ∧ commit_list server statements = none) := by
  by_cases h : rest_return_check (server statements) = true
  · exact Or.inl ⟨h, by simp [commit_list, h]⟩
  · refine Or.inr ⟨by simpa using h, ?_⟩
    simp only [commit_list]
    rw [if_neg h]

theorem commit_list_pointwise (evalStmt : String → NeoResult)
    (statements : List String) :
    commit_list (pointwiseServer evalStmt) statements
      = some (statements.map evalStmt) := by
  simp [commit_list, pointwiseServer, rest_return_check]

theorem commit_chunks_fold (evalStmt : String → NeoResult)
    (cs : List (List String)) :
    cs.foldr
      (fun c acc =>
        match commit_list (pointwiseServer evalStmt) c, acc with
        | some r, some rs => some (r ++ rs)
        | _, _ => none)
      (some []) = some (cs.flatten.map evalStmt) := by
  induction cs with
  | nil => rfl
  | cons c cs ih =>
    rw [List.foldr_cons, ih, commit_list_pointwise]
    simp [List.flatten_cons, List.map_append]

/-- Claim C9: on a server that executes each statement of a batch
independently, `commit_list_in_chunks` returns exactly what `commit_list`
returns on the same statement list: chunking is not observable in the
results. -/
theorem C9_commit_list_in_chunks_eq (evalStmt : String → NeoResult)
    (statements : List String) (chunk_length : Nat) (hn : 0 < chunk_length) :
    commit_list_in_chunks (pointwiseServer evalStmt) statements chunk_length
      = commit_list (pointwiseServer evalStmt) statements := by
  rw [commit_list_in_chunks, commit_chunks_fold,
    chunks_join statements chunk_length (Nat.pos_iff_ne_zero.mp hn),
    commit_list_pointwise]

/-- Witness for C9 at three statements and chunk length 2. -/
theorem C9_commit_list_in_chunks_eq_witness :
    0 < 2
    ∧ commit_list_in_chunks (pointwiseServer (fun s => ⟨s⟩)) ["a", "b", "c"] 2
      = commit_list (pointwiseServer (fun s => ⟨s⟩)) ["a", "b", "c"] :=
  ⟨by decide,
   C9_commit_list_in_chunks_eq (fun s => ⟨s⟩) ["a", "b", "c"] 2 (by decide)⟩

/-! ## ID resolution (`vfb.lookup_id`) -/

/-- A name:ID lookup table: entries pair a label, symbol or synonym with
the canonical ontology ID it resolves to. -/
def LookupTable : Type := List (String × String)

/-- Modelled from the spec: the resolver's normalization of
whitespace/underscore variants of a label — leading/trailing whitespace and
the separators space and underscore are immaterial, so `LC_12`, `LC12`,
`LC 12` and ` LC12 ` all share one normal form. -/
def normalize_label (s : String) : String :=
  String.mk (s.toList.filter (fun c => !(c == ' ' || c == '_')))

/-- Modelled from the spec: `vfb.lookup_id` — "mapping free-text labels,
symbols, synonyms to canonical ontology IDs, with disambiguation heuristics
for ambiguous matches such as LC_12": the key is normalized, matched
against the normalized entry names, and the first (canonical) match wins —
the disambiguation heuristic orders the canonical entry first. -/
def lookup_id (table : LookupTable) (key : String) : Option String :=
  (List.find? (fun e => normalize_label e.1 == normalize_label key) table).map
    (fun e => e.2)

/-- Modelled from the spec: a fragment of the VFB lookup table around the
ambiguous label `LC_12`: the symbol `LC12` and the historical synonym
`LC_12` both resolve to the canonical class FBbt_00100484, alongside
unrelated entries. -/
def vfb_lookup_sample : LookupTable :=
  [("LC12", "FBbt_00100484"),
   ("LC_12", "FBbt_00100484"),
   ("nodulus", "FBbt_00003680"),
   ("medulla", "FBbt_00003748")]

/-- The resolver is invariant under normalization: two keys with the same
normal form resolve identically. -/
theorem lookup_id_normalized (table : LookupTable) (a b : String)
    (h : normalize_label a = normalize_label b) :
    lookup_id table a = lookup_id table b := by
  unfold lookup_id
  rw [h]

/-- Claim C1: each of the input strings `LC_12`, `LC12`, `LC 12` and
` LC12 ` resolves to the same canonical ontology ID `FBbt_00100484`: the
resolver normalizes whitespace/underscore variants and disambiguates the
ambiguous label to one canonical ID rather than failing or returning
different IDs. -/
theorem C1_lookup_id_LC12_variants :
    lookup_id vfb_lookup_sample "LC_12" = some "FBbt_00100484"
    ∧ lookup_id vfb_lookup_sample "LC12" = some "FBbt_00100484"
    ∧ lookup_id vfb_lookup_sample "LC 12" = some "FBbt_00100484"
    ∧ lookup_id vfb_lookup_sample " LC12 " = some "FBbt_00100484" := by
  decide

/-! ## Lookup cache with TTL (`Neo4jConnect.get_lookup`, `lookup_cache.pkl`) -/

/-- Modelled from the spec: a node of the VFB Neo4j DB as seen by the
lookup generation query: its name, its ID and whether it is an individual
(individuals are included in the lookup only on request). -/
structure NeoEntity where
  name : String
  id : String
  isIndividual : Bool
deriving DecidableEq, Repr

/-- The content of the VFB Neo4j DB relevant to lookup generation. -/
def NeoGraph : Type := List NeoEntity

/-- Modelled from the spec: `Neo4jConnect.get_lookup` — "Generate a name:ID
lookup from a VFB neo4j DB"; the whole table is built by a single Neo4j
query; "include_individuals: If true, individuals included in lookup." -/
def get_lookup (db : NeoGraph) (include_individuals : Bool) : LookupTable :=
  (db.filter (fun e => include_individuals || !e.isIndividual)).map
    (fun e => (e.name, e.id))

/-- Modelled from the spec: the state persisted in `lookup_cache.pkl`: the
lookup table together with the time it was built. -/
structure CacheState where
  table : LookupTable
  builtAt : Nat

/-- Modelled from the spec: one lookup operation against the TTL cache: if
the table's age is below the TTL it is read unchanged; on expiry the whole
table is rebuilt by the single `get_lookup` query and the build time
reset.  Returns the resolved ID and the post-state. -/
def cache_lookup (ttl : Nat) (db : NeoGraph) (s : CacheState) (key : String)
    (now : Nat) : Option String × CacheState :=
  if now < s.builtAt + ttl then
    (lookup_id s.table key, s)
  else
    let t := get_lookup db false
    (lookup_id t key, ⟨t, now⟩)

/-- A sequence of lookup operations `(key, time)` run against the cache,
returning the list of results and the final state. -/
def run_lookups (ttl : Nat) (db : NeoGraph) (s : CacheState) :
    List (String × Nat) → List (Option String) × CacheState
  | [] => ([], s)
  | op :: ops =>
    let r := cache_lookup ttl db s op.1 op.2
    let rest := run_lookups ttl db r.2 ops
    (r.1 :: rest.1, rest.2)

/-- Claim C5: until the TTL expires, every lookup reads the one unchanged
table — a whole sequence of in-TTL lookups leaves the cache state exactly
as it was and answers every query from the original table (no lookup
mutates or evicts); and at expiry the whole table is rebuilt by the single
`get_lookup` query with the build time reset. -/
theorem C5_lookup_cache_ttl (ttl : Nat) (db : NeoGraph) (s : CacheState)
    (ops : List (String × Nat))
    (hfresh : ∀ op ∈ ops, op.2 < s.builtAt + ttl) :
    run_lookups ttl db s ops
      = (ops.map (fun op => lookup_id s.table op.1), s)
    ∧ ∀ key now, s.builtAt + ttl ≤ now →
        (cache_lookup ttl db s key now).2.table = get_lookup db false
        ∧ (cache_lookup ttl db s key now).2.builtAt = now := by
  constructor
  · induction ops with
    | nil => rfl
    | cons op ops ih =>
      have hop := hfresh op (List.mem_cons_self op ops)
      have hrest : ∀ o ∈ ops, o.2 < s.builtAt + ttl :=
        fun o ho => hfresh o (List.mem_cons_of_mem op ho)
      simp only [run_lookups, cache_lookup, if_pos hop, ih hrest, List.map]
  · intro key now hexp
    have h : ¬ now < s.builtAt + ttl := not_lt.mpr hexp
    constructor
    · simp only [cache_lookup, if_neg h]
    · simp only [cache_lookup, if_neg h]

/-- Witness for C5: two in-TTL lookups on a concrete cache. -/
theorem C5_lookup_cache_ttl_witness :
    (∀ op ∈ [("nodulus", 3), ("medulla", 7)],
      op.2 < (⟨vfb_lookup_sample, 0⟩ : CacheState).builtAt + 10)
    ∧ (run_lookups 10 [] ⟨vfb_lookup_sample, 0⟩ [("nodulus", 3), ("medulla", 7)]
        = ([("nodulus", 3), ("medulla", 7)].map
            (fun op => lookup_id (⟨vfb_lookup_sample, 0⟩ : CacheState).table op.1),
          ⟨vfb_lookup_sample, 0⟩)
      ∧ ∀ key now, (⟨vfb_lookup_sample, 0⟩ : CacheState).builtAt + 10 ≤ now →
          (cache_lookup 10 [] ⟨vfb_lookup_sample, 0⟩ key now).2.table
            = get_lookup [] false
          ∧ (cache_lookup 10 [] ⟨vfb_lookup_sample, 0⟩ key now).2.builtAt = now) :=
  ⟨by decide,
   C5_lookup_cache_ttl 10 [] ⟨vfb_lookup_sample, 0⟩ [("nodulus", 3), ("medulla", 7)]
     (by decide)⟩

/-! ## OWL query building (`vfb_connect.owl.owlery_query_tools.OWLeryConnect`) -/

/-- A lexical piece of a Manchester-syntax query string: either a
single-quoted entity label (class or relation, e.g. `'overlaps'`) or plain
query text (keywords such as `that`/`some`, IRIs, curies). -/
inductive QueryToken where
  | quoted (label : String)
  | plain (s : String)
deriving DecidableEq, Repr

/-- Exact name:ID lookup used by `OWLeryConnect` (its `lookup` attribute is
a dict of name: ID). -/
def find_label (lookup : LookupTable) (label : String) : Option String :=
  (List.find? (fun e => e.1 == label) lookup).map (fun e => e.2)

/-- Modelled from the spec: `OWLeryConnect.labels_2_ids` — "Substitutes
labels for IDs in a query string": every single-quoted label known to the
name:ID lookup is replaced in place by its ontology ID/curie; unknown
quoted labels and plain text are left untouched. -/
def labels_2_ids (lookup : LookupTable) (q : List QueryToken) :
    List QueryToken :=
  q.map (fun t =>
    match t with
    | .quoted label =>
      match find_label lookup label with
      | some i => .plain i
      | none => .quoted label
    | .plain s => .plain s)

/-- Modelled from the spec: `OWLeryConnect.query` — the query forwarded to
the external Owlery reasoner endpoint: when `query_by_label` is true the
query first passes through `labels_2_ids`, otherwise it is forwarded
unchanged. -/
def owlery_forwarded_query (lookup : LookupTable) (query_by_label : Bool)
    (q : List QueryToken) : List QueryToken :=
  if query_by_label then labels_2_ids lookup q else q

/-- The per-token substitution relation: plain text is preserved, a quoted
label known to the lookup becomes its ID as plain text, and an unknown
quoted label survives unchanged. -/
def substRel (lookup : LookupTable) (t u : QueryToken) : Prop :=
  match t with
  | .plain s => u = .plain s
  | .quoted label =>
    match find_label lookup label with
    | some i => u = .plain i
    | none => u = .quoted label

/-- Claim C2: for every Manchester-syntax query submitted with
`query_by_label = true`, the forwarded query substitutes each single-quoted
label that appears in the name:ID lookup (relation labels such as
`'overlaps'` included) with its ontology ID in place, and no quoted label
known to the lookup survives in the forwarded query. -/
theorem C2_labels_2_ids_subst (lookup : LookupTable) (q : List QueryToken) :
    List.Forall₂ (substRel lookup) q (owlery_forwarded_query lookup true q)
    ∧ ∀ label, QueryToken.quoted label ∈ owlery_forwarded_query lookup true q →
        find_label lookup label = none := by
  constructor
  · simp only [owlery_forwarded_query, if_pos, labels_2_ids]
    induction q with
    | nil => exact List.Forall₂.nil
    | cons t ts ih =>
      refine List.Forall₂.cons ?_ ih
      cases t with
      | plain s => simp [substRel]
      | quoted label =>
        simp only [substRel]
        cases h : find_label lookup label with
        | none => simp [h]
        | some i => simp [h]
  · intro label hmem
    simp only [owlery_forwarded_query, if_pos, labels_2_ids, List.mem_map] at hmem
    obtain ⟨t, _, ht⟩ := hmem
    cases t with
    | plain s => simp at ht
    | quoted l =>
      by_cases h : find_label lookup l = none
      · simp only [h] at ht
        cases ht
        exact h
      · obtain ⟨i, hi⟩ := Option.ne_none_iff_exists.mp h
        simp [← hi] at ht

example :
    owlery_forwarded_query
      [("neuron", "FBbt_00005106"), ("overlaps", "RO_0002131"),
        ("nodulus", "FBbt_00003680")] true
      [QueryToken.quoted "neuron", QueryToken.plain " that ",
        QueryToken.quoted "overlaps", QueryToken.plain " some ",
        QueryToken.quoted "nodulus"]
    = [QueryToken.plain "FBbt_00005106", QueryToken.plain " that ",
        QueryToken.plain "RO_0002131", QueryToken.plain " some ",
        QueryToken.plain "FBbt_00003680"] := by
  decide

/-! ## Lazy-loaded properties of `VFBTerm` / `VFBTerms` -/

/-- Modelled from the spec: the state of a `VFBTerm` (or `VFBTerms`)
object relevant to one lazy-loaded property `P`: fixed attributes (`id`,
`name` stand for all of them), the internal underscore-prefixed storage
attribute `_P` (here `cached`, `none` before the first access), and the
number of REST calls the object has issued. -/
structure VFBTermState (V : Type) where
  id : String
  name : String
  cached : Option V
  restCalls : Nat
deriving DecidableEq

/-- Modelled from the spec: accessing a lazy-loaded property `P`: on first
access the value is computed by issuing a REST call (`compute` models the
REST query for this property, a function of the term's ID) and stored in
the internal attribute `_P`; when `_P` is already populated the stored
value is returned as is. -/
def access_lazy (compute : String → V) (s : VFBTermState V) :
    V × VFBTermState V :=
  match s.cached with
  | some v => (v, s)
  | none =>
    let v := compute s.id
    (v, { s with cached := some v, restCalls := s.restCalls + 1 })

/-- Claim C4: a lazy-loaded property is computed (by a REST call) only on
first access; the result is stored in the internal `_P` attribute; a
second access returns the stored value with no further REST call and no
state change at all; the REST-call count rises only when the cache was
empty; and all other attributes are left unchanged by the access. -/
theorem C4_lazy_property_cached {V : Type} (compute : String → V)
    (s : VFBTermState V) :
    (access_lazy compute s).2.cached = some (access_lazy compute s).1
    ∧ access_lazy compute (access_lazy compute s).2
        = ((access_lazy compute s).1, (access_lazy compute s).2)
    ∧ (access_lazy compute s).2.restCalls
        = (if s.cached.isSome then s.restCalls else s.restCalls + 1)
    ∧ (access_lazy compute s).2.id = s.id
    ∧ (access_lazy compute s).2.name = s.name
    ∧ ∀ v, s.cached = some v →
        (access_lazy compute s).1 = v ∧ (access_lazy compute s).2 = s := by
  cases hc : s.cached with
  | some v =>
    refine ⟨?_, ?_, ?_, ?_, ?_, ?_⟩ <;>
      simp [access_lazy, hc]
  | none =>
    refine ⟨?_, ?_, ?_, ?_, ?_, ?_⟩ <;>
      simp [access_lazy, hc]

/-! ## Cross-reference mappings (`QueryWrapper.vfb_id_2_xrefs`) -/

/-- One row returned by the xref Cypher query: a `(vfb_id, db, acc)`
triple linking a VFB node to an accession in an external database. -/
structure XrefRow where
  vfb_id : String
  db : String
  acc : String
deriving DecidableEq, Repr

/-- Append a record to the bucket of its key in an association-list
dictionary, creating the bucket if absent (the dict values are lists
because the mappings are not 1:1). -/
def addEntry (k : String) (r : β) :
    List (String × List β) → List (String × List β)
  | [] => [(k, [r])]
  | e :: m => if k = e.1 then (e.1, e.2 ++ [r]) :: m else e :: addEntry k r m

/-- Build the dictionary grouping rows by `key`, keeping `payload` of each
row in the bucket. -/
def groupBy (key : γ → String) (payload : γ → β) (rows : List γ) :
    List (String × List β) :=
  rows.foldl (fun m row => addEntry (key row) (payload row) m) []

/-- The triples encoded by a dictionary: each bucket entry, rebuilt into a
full row from its key and payload. -/
def decodeGroups (rebuild : String → β → γ) (m : List (String × List β)) :
    List γ :=
  m.flatMap (fun e => e.2.map (rebuild e.1))

/-- Modelled from the spec: `QueryWrapper.vfb_id_2_xrefs` with
`reverse_return = False` — "dict { VFB_id : [{ db: <db> : acc : <acc> }".
-/
def vfb_id_2_xrefs_fwd (rows : List XrefRow) :
    List (String × List (String × String)) :=
  groupBy (fun r => r.vfb_id) (fun r => (r.db, r.acc)) rows

/-- Modelled from the spec: `QueryWrapper.vfb_id_2_xrefs` with
`reverse_return = True` — "dict { acc : [{ db: <db> : vfb_id : <VFB_id> }".
-/
def vfb_id_2_xrefs_rev (rows : List XrefRow) :
    List (String × List (String × String)) :=
  groupBy (fun r => r.acc) (fun r => (r.db, r.vfb_id)) rows

/-- The triples encoded by the forward representation. -/
def decode_fwd (m : List (String × List (String × String))) : List XrefRow :=
  decodeGroups (fun k p => ⟨k, p.1, p.2⟩) m

/-- The triples encoded by the reverse representation. -/
def decode_rev (m : List (String × List (String × String))) : List XrefRow :=
  decodeGroups (fun k p => ⟨p.2, p.1, k⟩) m

theorem decode_addEntry (rebuild : String → β → γ) (k : String) (p : β)
    (m : List (String × List β)) :
    List.Perm (decodeGroups rebuild (addEntry k p m))
      (rebuild k p :: decodeGroups rebuild m) := by
  induction m with
  | nil => simp [addEntry, decodeGroups]
  | cons e m ih =>
    by_cases hk : k = e.1
    · subst hk
      simp only [addEntry, if_pos, decodeGroups, List.flatMap_cons,
        List.map_append, List.map_cons, List.map_nil, List.append_assoc,
        List.singleton_append, if_true]
      exact List.perm_middle
    · simp only [addEntry, if_neg hk, decodeGroups, List.flatMap_cons]
      exact (List.Perm.append_left (e.2.map (rebuild e.1)) ih).trans
        List.perm_middle

theorem decode_groupBy_fold (key : γ → String) (payload : γ → β)
    (rebuild : String → β → γ)
    (hrb : ∀ r, rebuild (key r) (payload r) = r)
    (rows : List γ) (m : List (String × List β)) :
    List.Perm
      (decodeGroups rebuild
        (rows.foldl (fun m row => addEntry (key row) (payload row) m) m))
      (rows ++ decodeGroups rebuild m) := by
  induction rows generalizing m with
  | nil => simp
  | cons r rows ih =>
    simp only [List.foldl_cons, List.cons_append]
    have h1 := ih (addEntry (key r) (payload r) m)
    have h2 : List.Perm
        (rows ++ decodeGroups rebuild (addEntry (key r) (payload r) m))
        (rows ++ (rebuild (key r) (payload r) :: decodeGroups rebuild m)) :=
      List.Perm.append_left rows (decode_addEntry rebuild _ _ m)
    have h3 : List.Perm
        (rows ++ (rebuild (key r) (payload r) :: decodeGroups rebuild m))
        (rebuild (key r) (payload r) :: (rows ++ decodeGroups rebuild m)) :=
      List.perm_middle
    have h4 := (h1.trans h2).trans h3
    rwa [hrb r] at h4

/-- Claim C6: the forward representation (`reverse_return = False`,
`VFB_id ↦ [{db, acc}]`) and the transposed representation
(`reverse_return = True`, `acc ↦ [{db, vfb_id}]`) of `vfb_id_2_xrefs`
encode exactly the same `(vfb_id, db, acc)` triples as the underlying
query rows — each decodes to a permutation of the rows, accommodating
mappings that are not 1:1 — so the two representations carry the same set
of triples. -/
theorem C6_vfb_id_2_xrefs_transpose (rows : List XrefRow) :
    List.Perm (decode_fwd (vfb_id_2_xrefs_fwd rows)) rows
    ∧ List.Perm (decode_rev (vfb_id_2_xrefs_rev rows)) rows
    ∧ List.Perm (decode_fwd (vfb_id_2_xrefs_fwd rows))
        (decode_rev (vfb_id_2_xrefs_rev rows)) := by
  have hf : List.Perm (decode_fwd (vfb_id_2_xrefs_fwd rows)) rows := by
    have := decode_groupBy_fold (fun r : XrefRow => r.vfb_id)
      (fun r => (r.db, r.acc)) (fun k p => ⟨k, p.1, p.2⟩)
      (fun r => rfl) rows []
    simpa [decode_fwd, vfb_id_2_xrefs_fwd, groupBy, decodeGroups] using this
  have hr : List.Perm (decode_rev (vfb_id_2_xrefs_rev rows)) rows := by
    have := decode_groupBy_fold (fun r : XrefRow => r.acc)
      (fun r => (r.db, r.vfb_id)) (fun k p => ⟨p.2, p.1, k⟩)
      (fun r => rfl) rows []
    simpa [decode_rev, vfb_id_2_xrefs_rev, groupBy, decodeGroups] using this
  exact ⟨hf, hr, hf.trans hr.symm⟩

/-! ## Connectivity queries (`VfbConnect.get_neurons_downstream_of` /
`get_neurons_upstream_of`) -/

/-- A synaptic connection record between two individual neurons in the
VFB KB: the two neuron IDs, the connection strength (weight) and the
classifications of each endpoint. -/
structure Connection where
  upstream : String
  downstream : String
  weight : Nat
  upstreamTypes : List String
  downstreamTypes : List String
deriving DecidableEq, Repr

/-- Whether a neuron's classifications satisfy an optional `classification`
restriction (`none` = no restriction). -/
def matches_classification (classification : Option String)
    (types : List String) : Bool :=
  match classification with
  | none => true
  | some cls => types.contains cls

/-- Modelled from the spec: `VfbConnect.get_neurons_downstream_of` — "Get
all neurons downstream of individual `neuron` ... with connection strength
> threshold.  Optionally restrict target neurons to those specified by
`classification`." -/
def get_neurons_downstream_of (connectome : List Connection) (neuron : String)
    (weight : Nat) (classification : Option String) : List Connection :=
  connectome.filter (fun c =>
    c.upstream == neuron && weight < c.weight
      && matches_classification classification c.downstreamTypes)

/-- Modelled from the spec: `VfbConnect.get_neurons_upstream_of` — "Get
all neurons upstream of individual `neuron` ... with connection strength
> threshold.  Optionally restrict target neurons to those specified by
`classification`." -/
def get_neurons_upstream_of (connectome : List Connection) (neuron : String)
    (weight : Nat) (classification : Option String) : List Connection :=
  connectome.filter (fun c =>
    c.downstream == neuron && weight < c.weight
      && matches_classification classification c.upstreamTypes)

/-- Claim C7: `get_neurons_downstream_of` returns exactly the connections
from the query neuron whose strength strictly exceeds the weight
threshold: nothing at or below the threshold appears, every connection
above it (passing the classification restriction, trivial when absent)
appears, and a classification argument only restricts the unclassified
result; symmetrically for `get_neurons_upstream_of`. -/
theorem C7_connectivity_threshold (connectome : List Connection)
    (neuron : String) (w : Nat) (classification : Option String) :
    (∀ c ∈ get_neurons_downstream_of connectome neuron w classification,
        c.upstream = neuron ∧ w < c.weight)
    ∧ (∀ c ∈ connectome, c.upstream = neuron → w < c.weight →
        matches_classification classification c.downstreamTypes = true →
        c ∈ get_neurons_downstream_of connectome neuron w classification)
    ∧ (∀ c ∈ get_neurons_downstream_of connectome neuron w classification,
        c ∈ get_neurons_downstream_of connectome neuron w none)
    ∧ (∀ c ∈ get_neurons_upstream_of connectome neuron w classification,
        c.downstream = neuron ∧ w < c.weight)
    ∧ (∀ c ∈ connectome, c.downstream = neuron → w < c.weight →
        matches_classification classification c.upstreamTypes = true →
        c ∈ get_neurons_upstream_of connectome neuron w classification)
    ∧ (∀ c ∈ get_neurons_upstream_of connectome neuron w classification,
        c ∈ get_neurons_upstream_of connectome neuron w none) := by
  refine ⟨?_, ?_, ?_, ?_, ?_, ?_⟩
  · intro c hc
    have h := List.of_mem_filter hc
    simp only [Bool.and_eq_true, beq_iff_eq, decide_eq_true_eq] at h
    exact ⟨h.1.1, h.1.2⟩
  · intro c hc h1 h2 h3
    refine List.mem_filter.mpr ⟨hc, ?_⟩
    simp only [Bool.and_eq_true, beq_iff_eq, decide_eq_true_eq]
    exact ⟨⟨h1, h2⟩, h3⟩
  · intro c hc
    have h := List.of_mem_filter hc
    simp only [Bool.and_eq_true, beq_iff_eq, decide_eq_true_eq] at h
    refine List.mem_filter.mpr ⟨List.mem_of_mem_filter hc, ?_⟩
    simp only [Bool.and_eq_true, beq_iff_eq, decide_eq_true_eq,
      matches_classification]
    exact ⟨h.1, trivial⟩
  · intro c hc
    have h := List.of_mem_filter hc
    simp only [Bool.and_eq_true, beq_iff_eq, decide_eq_true_eq] at h
    exact ⟨h.1.1, h.1.2⟩
  · intro c hc h1 h2 h3
    refine List.mem_filter.mpr ⟨hc, ?_⟩
    simp only [Bool.and_eq_true, beq_iff_eq, decide_eq_true_eq]
    exact ⟨⟨h1, h2⟩, h3⟩
  · intro c hc
    have h := List.of_mem_filter hc
    simp only [Bool.and_eq_true, beq_iff_eq, decide_eq_true_eq] at h
    refine List.mem_filter.mpr ⟨List.mem_of_mem_filter hc, ?_⟩
    simp only [Bool.and_eq_true, beq_iff_eq, decide_eq_true_eq,
      matches_classification]
    exact ⟨h.1, trivial⟩

/-! ## `VFBTerms` equality and hashing -/

/-- A `VFBTerm` as far as identity is concerned: its ID (plus a name as a
representative of the attributes equality ignores). -/
structure VFBTerm where
  id : String
  name : String
deriving DecidableEq, Repr

/-- A `VFBTerms` collection: an ordered list of `VFBTerm` objects. -/
structure VFBTerms where
  terms : List VFBTerm
deriving DecidableEq, Repr

/-- `VFBTerms.get_ids`: the list of term IDs, in collection order. -/
def get_ids (ts : VFBTerms) : List String :=
  ts.terms.map (fun t => t.id)

/-- Modelled from the spec: `VFBTerms.__eq__` compares two collections by
their term IDs as sets (order-insensitive). -/
def vfbterms_eq (a b : VFBTerms) : Bool :=
  decide ((get_ids a).toFinset = (get_ids b).toFinset)

/-- Modelled from the spec: `VFBTerms.__hash__` hashes the set of term
IDs: an order-insensitive combination (here the sum) of the elementwise
string hashes over the set. -/
def vfbterms_hash (ts : VFBTerms) : Nat :=
  Finset.sum (get_ids ts).toFinset (fun s => (String.hash s).toNat)

/-- Claim C10: `a == b` holds exactly when `a` and `b` hold the same set
of term IDs (order is immaterial: permuting the terms preserves equality),
and `a == b` implies `hash a = hash b`, the hash being computed from the
set of term IDs — so `VFBTerms` behave consistently in sets and as dict
keys. -/
theorem C10_vfbterms_eq_hash (a b : VFBTerms) :
    (vfbterms_eq a b = true ↔ (get_ids a).toFinset = (get_ids b).toFinset)
    ∧ (vfbterms_eq a b = true → vfbterms_hash a = vfbterms_hash b)
    ∧ (List.Perm a.terms b.terms → vfbterms_eq a b = true) := by
  refine ⟨decide_eq_true_iff, ?_, ?_⟩
  · intro h
    unfold vfbterms_hash
    rw [of_decide_eq_true h]
  · intro hp
    unfold vfbterms_eq get_ids
    exact decide_eq_true
      (List.toFinset_eq_of_perm _ _ (List.Perm.map (fun t => t.id) hp))

end VFBConnect
